import Mathlib

set_option maxHeartbeats 1000000

/-!
Shallow embedding of the JavaScript-normalization stage of snort3
(src/service_inspectors/http_inspect/http_js_norm.cc) and of the atom
splitter (src/stream/stream_splitter.cc).  Bytes are modelled as Nat and
buffers as List Nat.  The two decoding backends (JSNormalizeDecode and
JSNormalizer::normalize, out of the excerpt) are kept abstract as function
parameters satisfying the contract the spec states for them.
-/

/-- ASCII upper-case fold used by the case-insensitive keyword matcher. -/
def upc (b : Nat) : Nat := if 97 ≤ b ∧ b ≤ 122 then b - 32 else b

/-- Case-insensitive byte equality. -/
def ciEq (a b : Nat) : Bool := upc a == upc b

/-- Pattern pat matches at the head of s, case-insensitively.
    Modelled from the spec: the SearchTool automaton lives in utility code
    outside the excerpt; the spec fixes its contract as fixed-keyword
    substring search. -/
def ciMatch : List Nat → List Nat → Bool
  | [], _ => true
  | _ :: _, [] => false
  | p :: ps, c :: cs => ciEq p c && ciMatch ps cs

/-- Walk a suffix of the searched buffer, carrying the absolute offset i of
    its head, and return the absolute offset of the first match of pat. -/
def findSubGo (pat : List Nat) : List Nat → Nat → Option Nat
  | [], _ => none
  | c :: cs, i =>
    if ciMatch pat (c :: cs) then some i else findSubGo pat cs (i + 1)

/-- Earliest index j with i ≤ j < s.length at which pat matches s.
    Modelled from the spec: the Matcher returns the start offset of the
    earliest-occurring pattern; SnortStrnStr is the single-pattern case. -/
def findSub (pat s : List Nat) (i : Nat) : Option Nat :=
  findSubGo pat (s.drop i) i

/-- pat occurs (case-insensitively) in s at offset i. -/
def occursAt (s pat : List Nat) (i : Nat) : Prop :=
  ciMatch pat (s.drop i) = true

instance occursAtDec (s pat : List Nat) (i : Nat) : Decidable (occursAt s pat i) := by
  unfold occursAt; infer_instance

/-- Search ids of the type/language keywords (http_enum.h, distinct
    enumerators registered at lines 119-131 of http_js_norm.cc). -/
inductive HtmlId
  | HTML_JS
  | HTML_EMA
  | HTML_VB
deriving DecidableEq, Repr

/-- Bytes of the keyword JAVASCRIPT. -/
def pat_JAVASCRIPT : List Nat := [74, 65, 86, 65, 83, 67, 82, 73, 80, 84]

/-- Bytes of the keyword ECMASCRIPT. -/
def pat_ECMASCRIPT : List Nat := [69, 67, 77, 65, 83, 67, 82, 73, 80, 84]

/-- Bytes of the keyword VBSCRIPT. -/
def pat_VBSCRIPT : List Nat := [86, 66, 83, 67, 82, 73, 80, 84]

/-- The script-opening keyword registered on the block-opener automaton.
    Modelled from the spec: the constant itself sits in http_js_norm.h
    (outside the excerpt); the spec and its examples use the tag opener
    so the keyword is the 7 bytes of a left angle bracket followed by
    SCRIPT, matched case-insensitively. -/
def script_start : List Nat := [60, 83, 67, 82, 73, 80, 84]

/-- The keyword table registered on htmltype_search_mpse (lines 119-131). -/
def html_patterns : List (List Nat × HtmlId) :=
  [(pat_JAVASCRIPT, HtmlId.HTML_JS),
   (pat_ECMASCRIPT, HtmlId.HTML_EMA),
   (pat_VBSCRIPT, HtmlId.HTML_VB)]

/-- Walk a suffix of the searched range, carrying the absolute offset of
    its head, and return offset and id of the first type-keyword match. -/
def findTypeGo : List Nat → Nat → Option (Nat × HtmlId)
  | [], _ => none
  | c :: cs, i =>
    match html_patterns.find? (fun p => ciMatch p.1 (c :: cs)) with
    | some p => some (i, p.2)
    | none => findTypeGo cs (i + 1)

/-- Earliest match of any registered type keyword at offset ≥ i in s,
    returning its start offset and search id (the htmltype search of
    line 169, whose callback reports the id of the first match). -/
def findType (s : List Nat) (i : Nat) : Option (Nat × HtmlId) :=
  findTypeGo (s.drop i) i

/-- Decode state threaded through every script block of one document
    (JSState of util_jsnorm.h; the alert bitmask is modelled as three
    distinct flags, one per alert bit tested at lines 225-239). -/
structure JSState where
  allowed_spaces : Int
  allowed_levels : Int
  alert_levels_exceeded : Bool
  alert_spaces_exceeded : Bool
  alert_mixed_encodings : Bool
deriving DecidableEq, Repr

/-- What one call of a decoding backend reports: how far the source cursor
    moved past the block start, how many destination bytes were produced,
    the produced bytes, and the updated decode state. -/
structure DecodeOut where
  consumed : Nat
  bytes_copied : Nat
  out : List Nat
  js : JSState
deriving DecidableEq, Repr

/-- Contract type of JsNormBase::normalize: source suffix, destination
    capacity, decode state, optional IIS unicode map. -/
def NormFn : Type :=
  List Nat → Nat → JSState → Option (List Nat) → DecodeOut

/-- Class JsNorm (lines 59-77), the depth-limited variant: forwards to
    JSNormalizer::normalize with the configured depth and ignores both the
    JSState argument and the unicode map. -/
def jsNormWrap (f : List Nat → Nat → Int → Nat × Nat × List Nat)
    (depth : Int) : NormFn :=
  fun src cap js _ =>
    { consumed := (f src cap depth).1
      bytes_copied := (f src cap depth).2.1
      out := (f src cap depth).2.2
      js := js }

/-- HttpJsNorm::configure (lines 93-134): depth 0 selects the legacy
    UtilJsNorm variant, a nonzero depth the depth-limited JsNorm variant. -/
def configureNormalizer (depth : Int) (legacy : NormFn)
    (f : List Nat → Nat → Int → Nat × Nat × List Nat) : NormFn :=
  if depth ≠ 0 then jsNormWrap f depth else legacy

/-- The loop state of HttpJsNorm::normalize: scan cursor ptr, output
    cursor index, the bytes written to the working buffer so far, the
    document-level js_present flag and the decode state. -/
structure ScanState where
  ptr : Nat
  index : Nat
  buf : List Nat
  js_present : Bool
  js : JSState
deriving DecidableEq, Repr

/-- Why the scan loop stopped. -/
inductive ExitReason
  | endReached
  | noScript
  | noTerminator
  | capacity
  | fuelOut
deriving DecidableEq, Repr

/-- Result of one loop iteration: exit the loop or continue. -/
inductive StepRes
  | exit : ScanState → ExitReason → StepRes
  | next : ScanState → StepRes
deriving DecidableEq, Repr

/-- The classification switch of lines 165-191.  Given the searched range,
    returns the js_present update and type_js; only the JAVASCRIPT id sets
    type_js, any other found id falls to the default case, and finding
    nothing defaults to treating the block as JavaScript. -/
def classifyType (s : List Nat) : Bool × Bool :=
  match findType s 0 with
  | some (_, t) => if t = HtmlId.HTML_JS then (true, true) else (false, false)
  | none => (true, true)

/-- Lines 165-192: when the angle bracket lies strictly past the candidate
    start, the type keywords are searched in between and the block start
    moves just past the bracket; first component is the updated block
    start, then the js_present update, then type_js. -/
def classifyBlock (input : List Nat) (jsStart ab : Nat) : Nat × Bool × Bool :=
  if jsStart < ab then
    ((ab + 1), (classifyType ((input.drop jsStart).take (ab - jsStart))).1,
      (classifyType ((input.drop jsStart).take (ab - jsStart))).2)
  else (jsStart, false, false)

/-- Lines 202-210: advance ptr to the block start and, for a JavaScript
    block, run the configured decoding backend on the rest of the body,
    appending its output and advancing both cursors. -/
def stepDecode (norm : NormFn) (iis : Option (List Nat)) (input : List Nat)
    (st : ScanState) (jsStart2 index2 : Nat) (buf2 : List Nat)
    (jp2 type_js : Bool) : StepRes :=
  if type_js then
    let r := norm (input.drop jsStart2) (input.length - index2) st.js iis
    StepRes.next ⟨jsStart2 + r.consumed, index2 + r.bytes_copied,
      buf2 ++ r.out, jp2, r.js⟩
  else
    StepRes.next ⟨jsStart2, index2, buf2, jp2, st.js⟩

/-- One iteration of the while loop of HttpJsNorm::normalize
    (lines 151-214). -/
def scanStep (norm : NormFn) (iis : Option (List Nat)) (input : List Nat)
    (st : ScanState) : StepRes :=
  match findSub script_start (input.drop st.ptr) 0 with
  | none => StepRes.exit st ExitReason.noScript
  | some m =>
    match findSub [62] input (st.ptr + m) with
    | none => StepRes.exit st ExitReason.noTerminator
    | some ab =>
      if input.length - ab = 0 then StepRes.exit st ExitReason.noTerminator
      else
        let c := classifyBlock input (st.ptr + m) ab
        let jsStart2 := c.1
        let jp2 := st.js_present || c.2.1
        let type_js := c.2.2
        if jsStart2 > st.ptr then
          if jsStart2 - st.ptr > input.length - st.index then
            StepRes.exit { st with js_present := jp2 } ExitReason.capacity
          else
            stepDecode norm iis input st jsStart2
              (st.index + (jsStart2 - st.ptr))
              (st.buf ++ (input.drop st.ptr).take (jsStart2 - st.ptr))
              jp2 type_js
        else
          stepDecode norm iis input st jsStart2 st.index st.buf jp2 type_js

/-- The scan loop, driven by explicit fuel; the C loop needs at most one
    iteration per input byte, so httpJsNormalize runs it with fuel
    input.length + 1 and the fuelOut reason is never reached. -/
def scanLoopF (norm : NormFn) (iis : Option (List Nat)) (input : List Nat) :
    Nat → ScanState → ScanState × ExitReason
  | 0, st => (st, ExitReason.fuelOut)
  | fuel + 1, st =>
    if st.ptr < input.length then
      match scanStep norm iis input st with
      | StepRes.exit st2 r => (st2, r)
      | StepRes.next st2 => scanLoopF norm iis input fuel st2
    else (st, ExitReason.endReached)

/-- Infractions reported at lines 227-237. -/
inductive InfId
  | INF_JS_OBFUSCATION_EXCD
  | INF_JS_EXCESS_WS
  | INF_MIXED_ENCODINGS
deriving DecidableEq, Repr

/-- Events created at lines 228-238. -/
inductive EventId
  | EVENT_JS_OBFUSCATION_EXCD
  | EVENT_JS_EXCESS_WS
  | EVENT_MIXED_ENCODINGS
deriving DecidableEq, Repr

/-- What one normalization call produces: the output bytes, whether the
    output aliases the input (output.set(input), the zero-copy path),
    the reported infractions and events, and the final decode state. -/
structure NormOutput where
  out : List Nat
  zeroCopy : Bool
  infractions : List InfId
  events : List EventId
  js_final : JSState
deriving DecidableEq, Repr

/-- Lines 216-247: copy any trailing bytes when a JavaScript block was
    found and they fit, report each set alert bit once, and either hand
    over the working buffer or fall back to the input unchanged. -/
def finalizeOut (input : List Nat) (st : ScanState) : NormOutput :=
  if st.js_present then
    let tr : Bool := decide (st.ptr < input.length) &&
      decide (input.length - st.index ≥ input.length - st.ptr)
    let index2 := if tr then st.index + (input.length - st.ptr) else st.index
    let buf2 := if tr then st.buf ++ input.drop st.ptr else st.buf
    let anyAlert := st.js.alert_levels_exceeded || st.js.alert_spaces_exceeded ||
      st.js.alert_mixed_encodings
    { out := buf2.take index2
      zeroCopy := false
      infractions :=
        if anyAlert then
          (if st.js.alert_levels_exceeded then [InfId.INF_JS_OBFUSCATION_EXCD] else []) ++
          (if st.js.alert_spaces_exceeded then [InfId.INF_JS_EXCESS_WS] else []) ++
          (if st.js.alert_mixed_encodings then [InfId.INF_MIXED_ENCODINGS] else [])
        else []
      events :=
        if anyAlert then
          (if st.js.alert_levels_exceeded then [EventId.EVENT_JS_OBFUSCATION_EXCD] else []) ++
          (if st.js.alert_spaces_exceeded then [EventId.EVENT_JS_EXCESS_WS] else []) ++
          (if st.js.alert_mixed_encodings then [EventId.EVENT_MIXED_ENCODINGS] else [])
        else []
      js_final := st.js }
  else
    { out := input
      zeroCopy := true
      infractions := []
      events := []
      js_final := st.js }

/-- The initial loop state built at lines 139-147: cursors at zero, empty
    buffer, js_present false, decode state fresh with the configured
    whitespace allowance and obfuscation-level allowance. -/
def initState (maxws maxlv : Int) : ScanState :=
  ⟨0, 0, [], false, ⟨maxws, maxlv, false, false, false⟩⟩

/-- HttpJsNorm::normalize (lines 136-248).  maxws is the configured
    max_javascript_whitespaces; maxlv stands for MAX_ALLOWED_OBFUSCATION,
    a constant of a header outside the excerpt, kept as a parameter. -/
def httpJsNormalize (norm : NormFn) (iis : Option (List Nat))
    (maxws maxlv : Int) (input : List Nat) : NormOutput :=
  finalizeOut input
    (scanLoopF norm iis input (input.length + 1) (initState maxws maxlv)).1

/-- AtomSplitter counters and thresholds (stream_splitter.cc lines 56-89;
    the member declarations sit in the header outside the excerpt, so the
    counters are modelled from the spec as plain byte and segment counts). -/
structure AtomSplitter where
  bytes : Nat
  segs : Nat
  base : Nat
  min : Nat
deriving DecidableEq, Repr

/-- StreamSplitter scan status. -/
inductive SplitStatus
  | SEARCH
  | FLUSH
deriving DecidableEq, Repr

/-- AtomSplitter constructor (lines 56-61): reset both counters, then set
    base and the minimum threshold from the configured size plus the flush
    bucket size (FlushBucket::get_size, kept as a parameter). -/
def atomInit (sz fb : Nat) : AtomSplitter := ⟨0, 0, sz, sz + fb⟩

/-- AtomSplitter::scan (lines 65-78): count the segment and its bytes and
    flush at the current segment length once at least two segments were
    seen and the byte count reached the threshold. -/
def atomScan (st : AtomSplitter) (len : Nat) :
    AtomSplitter × SplitStatus × Option Nat :=
  let st2 := { st with bytes := st.bytes + len, segs := st.segs + 1 }
  if st2.segs ≥ 2 ∧ st2.bytes ≥ st2.min then (st2, SplitStatus.FLUSH, some len)
  else (st2, SplitStatus.SEARCH, none)

/-- Feed a sequence of segment lengths through successive scan calls. -/
def atomFeed (st : AtomSplitter) : List Nat → AtomSplitter
  | [] => st
  | l :: ls => atomFeed (atomScan st l).1 ls

/-! ### Basic facts about the matcher -/

theorem drop_cons_succ (s : List Nat) (i : Nat) (c : Nat) (cs : List Nat)
    (hd : s.drop i = c :: cs) : s.drop (i + 1) = cs := by
  have h1 : s.drop (i + 1) = (s.drop i).drop 1 := by
    rw [List.drop_drop]
  rw [h1, hd]
  rfl

theorem drop_cons_lt (s : List Nat) (i : Nat) (c : Nat) (cs : List Nat)
    (hd : s.drop i = c :: cs) : i < s.length := by
  have h1 := congrArg List.length hd
  simp [List.length_drop] at h1
  omega

theorem ciMatch_length (pat : List Nat) :
    ∀ l, ciMatch pat l = true → pat.length ≤ l.length := by
  induction pat with
  | nil => intro l _; simp
  | cons p ps ih =>
    intro l h
    cases l with
    | nil => simp [ciMatch] at h
    | cons c cs =>
      simp only [ciMatch, Bool.and_eq_true] at h
      have := ih cs h.2
      simp [List.length_cons]
      omega

theorem ciMatch_head (a : Nat) (pa l : List Nat) (h : ciMatch (a :: pa) l = true) :
    ∃ c cs, l = c :: cs ∧ upc a = upc c ∧ ciMatch pa cs = true := by
  cases l with
  | nil => simp [ciMatch] at h
  | cons c cs =>
    simp only [ciMatch, Bool.and_eq_true, ciEq, beq_iff_eq] at h
    exact ⟨c, cs, rfl, h.1, h.2⟩

theorem ciMatch_head_excl (a b : Nat) (pa pb l : List Nat) (hab : upc a ≠ upc b)
    (h1 : ciMatch (a :: pa) l = true) (h2 : ciMatch (b :: pb) l = true) : False := by
  obtain ⟨c, cs, hl, hac, -⟩ := ciMatch_head a pa l h1
  obtain ⟨c2, cs2, hl2, hbc, -⟩ := ciMatch_head b pb l h2
  rw [hl] at hl2
  injection hl2 with hcc _
  exact hab (by rw [hac, hbc, hcc])

theorem findSubGo_some (pat s : List Nat) :
    ∀ n i j, s.length - i ≤ n → findSubGo pat (s.drop i) i = some j →
      i ≤ j ∧ j < s.length ∧ ciMatch pat (s.drop j) = true := by
  intro n
  induction n with
  | zero =>
    intro i j hn h
    have hnil : s.drop i = [] := List.drop_eq_nil_of_le (by omega)
    rw [hnil] at h
    simp [findSubGo] at h
  | succ n ih =>
    intro i j hn h
    cases hd : s.drop i with
    | nil => rw [hd] at h; simp [findSubGo] at h
    | cons c cs =>
      rw [hd] at h
      have hlt : i < s.length := drop_cons_lt s i c cs hd
      have hcs : s.drop (i + 1) = cs := drop_cons_succ s i c cs hd
      by_cases hm : ciMatch pat (c :: cs) = true
      · rw [findSubGo, if_pos hm] at h
        injection h with hij
        subst hij
        exact ⟨le_refl i, hlt, by rw [hd]; exact hm⟩
      · rw [findSubGo, if_neg hm] at h
        rw [← hcs] at h
        have := ih (i + 1) j (by omega) h
        exact ⟨by omega, this.2.1, this.2.2⟩

theorem findSubGo_min (pat s : List Nat) :
    ∀ n i j, s.length - i ≤ n → findSubGo pat (s.drop i) i = some j →
      ∀ k, i ≤ k → k < j → ciMatch pat (s.drop k) = false := by
  intro n
  induction n with
  | zero =>
    intro i j hn h
    have hnil : s.drop i = [] := List.drop_eq_nil_of_le (by omega)
    rw [hnil] at h
    simp [findSubGo] at h
  | succ n ih =>
    intro i j hn h k hik hkj
    cases hd : s.drop i with
    | nil => rw [hd] at h; simp [findSubGo] at h
    | cons c cs =>
      rw [hd] at h
      have hcs : s.drop (i + 1) = cs := drop_cons_succ s i c cs hd
      by_cases hm : ciMatch pat (c :: cs) = true
      · rw [findSubGo, if_pos hm] at h
        injection h with hij
        omega
      · rw [findSubGo, if_neg hm] at h
        rw [← hcs] at h
        rcases Nat.eq_or_lt_of_le hik with hik2 | hik2
        · subst hik2
          rw [hd]
          exact Bool.not_eq_true _ ▸ (by simpa using hm)
        · exact ih (i + 1) j (by omega) h k hik2 hkj

theorem findSubGo_none (pat s : List Nat) :
    ∀ n i, s.length - i ≤ n → findSubGo pat (s.drop i) i = none →
      ∀ k, i ≤ k → k < s.length → ciMatch pat (s.drop k) = false := by
  intro n
  induction n with
  | zero =>
    intro i hn _ k hik hk
    omega
  | succ n ih =>
    intro i hn h k hik hk
    cases hd : s.drop i with
    | nil =>
      have h1 := congrArg List.length hd
      simp [List.length_drop] at h1
      omega
    | cons c cs =>
      rw [hd] at h
      have hcs : s.drop (i + 1) = cs := drop_cons_succ s i c cs hd
      by_cases hm : ciMatch pat (c :: cs) = true
      · rw [findSubGo, if_pos hm] at h
        simp at h
      · rw [findSubGo, if_neg hm] at h
        rw [← hcs] at h
        rcases Nat.eq_or_lt_of_le hik with hik2 | hik2
        · subst hik2
          rw [hd]
          simpa using hm
        · exact ih (i + 1) (by omega) h k hik2 hk

theorem findSubGo_eq_none (pat s : List Nat) :
    ∀ n i, s.length - i ≤ n →
      (∀ k, i ≤ k → k < s.length → ciMatch pat (s.drop k) = false) →
      findSubGo pat (s.drop i) i = none := by
  intro n
  induction n with
  | zero =>
    intro i hn _
    have hnil : s.drop i = [] := List.drop_eq_nil_of_le (by omega)
    rw [hnil]
    rfl
  | succ n ih =>
    intro i hn hall
    cases hd : s.drop i with
    | nil => rfl
    | cons c cs =>
      have hlt : i < s.length := drop_cons_lt s i c cs hd
      have hcs : s.drop (i + 1) = cs := drop_cons_succ s i c cs hd
      rw [findSubGo]
      rw [if_neg]
      · rw [← hcs]
        exact ih (i + 1) (by omega) (fun k hk1 hk2 => hall k (by omega) hk2)
      · rw [← hd]
        simp [hall i (le_refl i) hlt]

theorem findSub_some_spec (pat s : List Nat) (i j : Nat)
    (h : findSub pat s i = some j) :
    i ≤ j ∧ j < s.length ∧ ciMatch pat (s.drop j) = true := by
  unfold findSub at h
  exact findSubGo_some pat s (s.length - i) i j (le_refl _) h

theorem findSub_min_spec (pat s : List Nat) (i j : Nat)
    (h : findSub pat s i = some j) :
    ∀ k, i ≤ k → k < j → ciMatch pat (s.drop k) = false := by
  unfold findSub at h
  exact findSubGo_min pat s (s.length - i) i j (le_refl _) h

theorem findSub_none_spec (pat s : List Nat) (i : Nat)
    (h : findSub pat s i = none) :
    ∀ k, i ≤ k → k < s.length → ciMatch pat (s.drop k) = false := by
  unfold findSub at h
  exact findSubGo_none pat s (s.length - i) i (le_refl _) h

theorem findSub_eq_none_spec (pat s : List Nat) (i : Nat)
    (hall : ∀ k, i ≤ k → k < s.length → ciMatch pat (s.drop k) = false) :
    findSub pat s i = none := by
  unfold findSub
  exact findSubGo_eq_none pat s (s.length - i) i (le_refl _) hall

theorem findTypeGo_some (s : List Nat) :
    ∀ n i j t, s.length - i ≤ n → findTypeGo (s.drop i) i = some (j, t) →
      i ≤ j ∧ j < s.length ∧
      (∃ p, p ∈ html_patterns ∧ p.2 = t ∧ ciMatch p.1 (s.drop j) = true) := by
  intro n
  induction n with
  | zero =>
    intro i j t hn h
    have hnil : s.drop i = [] := List.drop_eq_nil_of_le (by omega)
    rw [hnil] at h
    simp [findTypeGo] at h
  | succ n ih =>
    intro i j t hn h
    cases hd : s.drop i with
    | nil => rw [hd] at h; simp [findTypeGo] at h
    | cons c cs =>
      rw [hd] at h
      have hlt : i < s.length := drop_cons_lt s i c cs hd
      have hcs : s.drop (i + 1) = cs := drop_cons_succ s i c cs hd
      rw [findTypeGo] at h
      cases hf : html_patterns.find? (fun p => ciMatch p.1 (c :: cs)) with
      | some p =>
        rw [hf] at h
        injection h with hpair
        injection hpair with hij hpt
        subst hij
        refine ⟨le_refl i, hlt, p, List.mem_of_find?_eq_some hf, hpt, ?_⟩
        rw [hd]
        simpa using List.find?_some hf
      | none =>
        rw [hf] at h
        rw [← hcs] at h
        have := ih (i + 1) j t (by omega) h
        exact ⟨by omega, this.2.1, this.2.2⟩

theorem findTypeGo_min (s : List Nat) :
    ∀ n i j t, s.length - i ≤ n → findTypeGo (s.drop i) i = some (j, t) →
      ∀ k, i ≤ k → k < j → ∀ q ∈ html_patterns, ciMatch q.1 (s.drop k) = false := by
  intro n
  induction n with
  | zero =>
    intro i j t hn h
    have hnil : s.drop i = [] := List.drop_eq_nil_of_le (by omega)
    rw [hnil] at h
    simp [findTypeGo] at h
  | succ n ih =>
    intro i j t hn h k hik hkj q hq
    cases hd : s.drop i with
    | nil => rw [hd] at h; simp [findTypeGo] at h
    | cons c cs =>
      rw [hd] at h
      have hcs : s.drop (i + 1) = cs := drop_cons_succ s i c cs hd
      rw [findTypeGo] at h
      cases hf : html_patterns.find? (fun p => ciMatch p.1 (c :: cs)) with
      | some p =>
        rw [hf] at h
        injection h with hpair
        injection hpair with hij hpt
        omega
      | none =>
        rw [hf] at h
        rw [← hcs] at h
        rcases Nat.eq_or_lt_of_le hik with hik2 | hik2
        · subst hik2
          rw [hd]
          have := List.find?_eq_none.mp hf q hq
          simpa using this
        · exact ih (i + 1) j t (by omega) h k hik2 hkj q hq

theorem findTypeGo_none (s : List Nat) :
    ∀ n i, s.length - i ≤ n → findTypeGo (s.drop i) i = none →
      ∀ k, i ≤ k → k < s.length → ∀ q ∈ html_patterns, ciMatch q.1 (s.drop k) = false := by
  intro n
  induction n with
  | zero =>
    intro i hn _ k hik hk
    omega
  | succ n ih =>
    intro i hn h k hik hk q hq
    cases hd : s.drop i with
    | nil =>
      have h1 := congrArg List.length hd
      simp [List.length_drop] at h1
      omega
    | cons c cs =>
      rw [hd] at h
      have hcs : s.drop (i + 1) = cs := drop_cons_succ s i c cs hd
      rw [findTypeGo] at h
      cases hf : html_patterns.find? (fun p => ciMatch p.1 (c :: cs)) with
      | some p => rw [hf] at h; simp at h
      | none =>
        rw [hf] at h
        rw [← hcs] at h
        rcases Nat.eq_or_lt_of_le hik with hik2 | hik2
        · subst hik2
          rw [hd]
          have := List.find?_eq_none.mp hf q hq
          simpa using this
        · exact ih (i + 1) (by omega) h k hik2 hk q hq

/-- Every registered type keyword is at least 8 bytes long. -/
theorem html_patterns_long (q : List Nat × HtmlId) (hq : q ∈ html_patterns) :
    8 ≤ q.1.length := by
  simp only [html_patterns, List.mem_cons, List.not_mem_nil, or_false] at hq
  rcases hq with h | h | h
  · rw [h]; decide
  · rw [h]; decide
  · rw [h]; decide

/-- A searched range shorter than 8 bytes holds no type-keyword match:
    the classifier defaults to JavaScript on it. -/
theorem findType_short (s : List Nat) (hs : s.length < 8) :
    findType s 0 = none := by
  unfold findType
  have : ∀ n i, s.length - i ≤ n → findTypeGo (s.drop i) i = none := by
    intro n
    induction n with
    | zero =>
      intro i hn
      have hnil : s.drop i = [] := List.drop_eq_nil_of_le (by omega)
      rw [hnil]
      rfl
    | succ n ih =>
      intro i hn
      cases hd : s.drop i with
      | nil => rfl
      | cons c cs =>
        have hcs : s.drop (i + 1) = cs := drop_cons_succ s i c cs hd
        rw [findTypeGo]
        have hf : html_patterns.find? (fun p => ciMatch p.1 (c :: cs)) = none := by
          rw [List.find?_eq_none]
          intro q hq hmatch
          have hlen := ciMatch_length q.1 (c :: cs) hmatch
          have h8 := html_patterns_long q hq
          have hdl := congrArg List.length hd
          simp [List.length_drop] at hdl
          simp [List.length_cons] at hlen
          omega
        rw [hf, ← hcs]
        exact ih (i + 1) (by omega)
  exact this s.length 0 (by omega)

/-- The first bytes of the three type keywords and of the opener and the
    terminator are pairwise distinct under case folding, so two different
    keywords never match at the same offset. -/
theorem script_start_head_ne_gt (input : List Nat) (q : Nat)
    (h1 : ciMatch script_start (input.drop q) = true)
    (h2 : ciMatch [62] (input.drop q) = true) : False := by
  have h60 : upc 60 ≠ upc 62 := by decide
  exact ciMatch_head_excl 60 62 _ _ _ h60 h1 h2

/-- The angle bracket found from the candidate start always lies strictly
    past it, because the candidate start byte matches the opener keyword
    and hence cannot be the terminator byte. -/
theorem found_ab_gt (input : List Nat) (q ab : Nat)
    (h1 : ciMatch script_start (input.drop q) = true)
    (h2 : findSub [62] input q = some ab) : q < ab := by
  obtain ⟨hq, hlt, hm⟩ := findSub_some_spec [62] input q ab h2
  rcases Nat.eq_or_lt_of_le hq with h | h
  · subst h
    exact (script_start_head_ne_gt input q h1 hm).elim
  · exact h

/-! ### Characterization of one scan-loop iteration -/

/-- The two components returned by the classification switch always agree:
    js_present is set in exactly the branches that set type_js. -/
theorem classifyType_diag (s : List Nat) :
    (classifyType s).1 = (classifyType s).2 := by
  unfold classifyType
  cases h : findType s 0 with
  | none => rfl
  | some p =>
    obtain ⟨j, t⟩ := p
    cases t <;> rfl

/-- When the opener and a terminator are both found, the iteration always
    reaches the copy step with block start just past the terminator: the
    terminator lies strictly past the candidate start (so the empty
    classification branch and the no-bytes-after check of line 162 are
    unreachable), the terminator is inside the buffer, and the iteration
    either aborts on capacity or copies and hands over to stepDecode. -/
theorem scanStep_live (norm : NormFn) (iis : Option (List Nat)) (input : List Nat)
    (st : ScanState) (m ab : Nat)
    (hfind : findSub script_start (input.drop st.ptr) 0 = some m)
    (hab : findSub [62] input (st.ptr + m) = some ab) :
    st.ptr + m < ab ∧ ab < input.length ∧
    scanStep norm iis input st =
      (if ab + 1 - st.ptr > input.length - st.index then
        StepRes.exit { st with js_present := st.js_present ||
          (classifyType ((input.drop (st.ptr + m)).take (ab - (st.ptr + m)))).1 }
          ExitReason.capacity
      else
        stepDecode norm iis input st (ab + 1)
          (st.index + (ab + 1 - st.ptr))
          (st.buf ++ (input.drop st.ptr).take (ab + 1 - st.ptr))
          (st.js_present ||
            (classifyType ((input.drop (st.ptr + m)).take (ab - (st.ptr + m)))).1)
          (classifyType ((input.drop (st.ptr + m)).take (ab - (st.ptr + m)))).2) := by
  have hdd : (input.drop st.ptr).drop m = input.drop (st.ptr + m) := by
    rw [List.drop_drop, Nat.add_comm]
  obtain ⟨-, -, hmm⟩ := findSub_some_spec script_start (input.drop st.ptr) 0 m hfind
  rw [hdd] at hmm
  have h1 : st.ptr + m < ab := found_ab_gt input (st.ptr + m) ab hmm hab
  have h2 : ab < input.length := (findSub_some_spec [62] input (st.ptr + m) ab hab).2.1
  refine ⟨h1, h2, ?_⟩
  simp only [scanStep, hfind, hab]
  rw [if_neg (by omega : ¬ (input.length - ab = 0))]
  simp only [classifyBlock, if_pos h1]
  rw [if_pos (by omega : ab + 1 > st.ptr)]

/-- Any loop exit leaves the cursors, the buffer and the decode state
    unchanged, never reports fuel exhaustion, and can only raise the
    js_present flag. -/
theorem scanStep_exit_shape (norm : NormFn) (iis : Option (List Nat))
    (input : List Nat) (st st2 : ScanState) (r : ExitReason)
    (h : scanStep norm iis input st = StepRes.exit st2 r) :
    st2.ptr = st.ptr ∧ st2.index = st.index ∧ st2.buf = st.buf ∧ st2.js = st.js ∧
    r ≠ ExitReason.fuelOut ∧
    (st2.js_present = st.js_present ∨ st2.js_present = true) := by
  cases hfind : findSub script_start (input.drop st.ptr) 0 with
  | none =>
    simp only [scanStep, hfind] at h
    injection h with h3 h4
    subst h3; subst h4
    exact ⟨rfl, rfl, rfl, rfl, by simp, Or.inl rfl⟩
  | some m =>
    cases hab : findSub [62] input (st.ptr + m) with
    | none =>
      simp only [scanStep, hfind, hab] at h
      injection h with h3 h4
      subst h3; subst h4
      exact ⟨rfl, rfl, rfl, rfl, by simp, Or.inl rfl⟩
    | some ab =>
      obtain ⟨h1, h2, heq⟩ := scanStep_live norm iis input st m ab hfind hab
      rw [heq] at h
      by_cases hcap : ab + 1 - st.ptr > input.length - st.index
      · rw [if_pos hcap] at h
        injection h with h3 h4
        subst h4
        refine ⟨by rw [← h3], by rw [← h3], by rw [← h3], by rw [← h3], by simp, ?_⟩
        rw [← h3]
        cases hX : (classifyType ((input.drop (st.ptr + m)).take (ab - (st.ptr + m)))).1
        · exact Or.inl (by simp)
        · exact Or.inr (by simp)
      · rw [if_neg hcap] at h
        unfold stepDecode at h
        by_cases hty :
            (classifyType ((input.drop (st.ptr + m)).take (ab - (st.ptr + m)))).2 = true
        · rw [if_pos hty] at h
          exact StepRes.noConfusion h
        · rw [if_neg hty] at h
          exact StepRes.noConfusion h

/-- Every continuing iteration advances the scan cursor strictly, keeps
    js_present monotone, and preserves the invariant that the output
    cursor equals the scan cursor as long as no block was classified as
    JavaScript. -/
theorem scanStep_next_shape (norm : NormFn) (iis : Option (List Nat))
    (input : List Nat) (st st2 : ScanState)
    (h : scanStep norm iis input st = StepRes.next st2) :
    st.ptr < st2.ptr ∧
    (st.js_present = true → st2.js_present = true) ∧
    ((st.js_present = false → st.index = st.ptr) →
      st2.js_present = false → st2.index = st2.ptr) := by
  cases hfind : findSub script_start (input.drop st.ptr) 0 with
  | none =>
    simp only [scanStep, hfind] at h
    exact StepRes.noConfusion h
  | some m =>
    cases hab : findSub [62] input (st.ptr + m) with
    | none =>
      simp only [scanStep, hfind, hab] at h
      exact StepRes.noConfusion h
    | some ab =>
      obtain ⟨h1, h2, heq⟩ := scanStep_live norm iis input st m ab hfind hab
      rw [heq] at h
      by_cases hcap : ab + 1 - st.ptr > input.length - st.index
      · rw [if_pos hcap] at h
        exact StepRes.noConfusion h
      · rw [if_neg hcap] at h
        unfold stepDecode at h
        have hdiag := classifyType_diag ((input.drop (st.ptr + m)).take (ab - (st.ptr + m)))
        by_cases hty :
            (classifyType ((input.drop (st.ptr + m)).take (ab - (st.ptr + m)))).2 = true
        · rw [if_pos hty] at h
          injection h with h3
          subst h3
          refine ⟨by simp; omega, ?_, ?_⟩
          · intro hjp
            simp [hjp]
          · intro _ hjp2
            simp only at hjp2
            rw [hdiag, hty] at hjp2
            simp at hjp2
        · rw [if_neg hty] at h
          injection h with h3
          subst h3
          have htyf : (classifyType ((input.drop (st.ptr + m)).take (ab - (st.ptr + m)))).2
              = false := by
            cases hc : (classifyType ((input.drop (st.ptr + m)).take (ab - (st.ptr + m)))).2
            · rfl
            · exact absurd hc hty
          refine ⟨by simp; omega, ?_, ?_⟩
          · intro hjp
            simp [hjp]
          · intro hinv hjp2
            simp only at hjp2 ⊢
            rw [hdiag, htyf] at hjp2
            simp at hjp2
            have := hinv hjp2
            omega

/-- When the decoding backend honors its destination-capacity bound, no
    continuing iteration pushes the output cursor past the input length. -/
theorem scanStep_next_index (norm : NormFn) (iis : Option (List Nat))
    (input : List Nat) (st st2 : ScanState)
    (hB : ∀ src cap js i2, (norm src cap js i2).bytes_copied ≤ cap)
    (h : scanStep norm iis input st = StepRes.next st2)
    (hidx : st.index ≤ input.length) : st2.index ≤ input.length := by
  cases hfind : findSub script_start (input.drop st.ptr) 0 with
  | none =>
    simp only [scanStep, hfind] at h
    exact StepRes.noConfusion h
  | some m =>
    cases hab : findSub [62] input (st.ptr + m) with
    | none =>
      simp only [scanStep, hfind, hab] at h
      exact StepRes.noConfusion h
    | some ab =>
      obtain ⟨h1, h2, heq⟩ := scanStep_live norm iis input st m ab hfind hab
      rw [heq] at h
      by_cases hcap : ab + 1 - st.ptr > input.length - st.index
      · rw [if_pos hcap] at h
        exact StepRes.noConfusion h
      · rw [if_neg hcap] at h
        unfold stepDecode at h
        by_cases hty :
            (classifyType ((input.drop (st.ptr + m)).take (ab - (st.ptr + m)))).2 = true
        · rw [if_pos hty] at h
          injection h with h3
          subst h3
          simp only
          have hbc := hB (input.drop (ab + 1))
            (input.length - (st.index + (ab + 1 - st.ptr))) st.js iis
          omega
        · rw [if_neg hty] at h
          injection h with h3
          subst h3
          simp only
          omega

/-- With the depth-limited backend the decode state is passed back
    verbatim: no continuing iteration changes it. -/
theorem scanStep_next_js_wrap (f : List Nat → Nat → Int → Nat × Nat × List Nat)
    (depth : Int) (iis : Option (List Nat)) (input : List Nat) (st st2 : ScanState)
    (h : scanStep (jsNormWrap f depth) iis input st = StepRes.next st2) :
    st2.js = st.js := by
  cases hfind : findSub script_start (input.drop st.ptr) 0 with
  | none =>
    simp only [scanStep, hfind] at h
    exact StepRes.noConfusion h
  | some m =>
    cases hab : findSub [62] input (st.ptr + m) with
    | none =>
      simp only [scanStep, hfind, hab] at h
      exact StepRes.noConfusion h
    | some ab =>
      obtain ⟨h1, h2, heq⟩ := scanStep_live (jsNormWrap f depth) iis input st m ab hfind hab
      rw [heq] at h
      by_cases hcap : ab + 1 - st.ptr > input.length - st.index
      · rw [if_pos hcap] at h
        exact StepRes.noConfusion h
      · rw [if_neg hcap] at h
        unfold stepDecode at h
        by_cases hty :
            (classifyType ((input.drop (st.ptr + m)).take (ab - (st.ptr + m)))).2 = true
        · rw [if_pos hty] at h
          injection h with h3
          subst h3
          rfl
        · rw [if_neg hty] at h
          injection h with h3
          subst h3
          rfl

/-- A capacity abort can only happen after some block was classified as
    JavaScript: the preceding-bytes copy of lines 193-200 can exceed the
    remaining capacity only when the output cursor has run ahead of the
    scan cursor, which only a decoding call can cause. -/
theorem scanStep_capacity (norm : NormFn) (iis : Option (List Nat))
    (input : List Nat) (st st2 : ScanState)
    (h : scanStep norm iis input st = StepRes.exit st2 ExitReason.capacity)
    (hinv : st.js_present = false → st.index = st.ptr) :
    st2.js_present = true := by
  cases hfind : findSub script_start (input.drop st.ptr) 0 with
  | none =>
    simp only [scanStep, hfind] at h
    injection h with h3 h4
    exact ExitReason.noConfusion h4
  | some m =>
    cases hab : findSub [62] input (st.ptr + m) with
    | none =>
      simp only [scanStep, hfind, hab] at h
      injection h with h3 h4
      exact ExitReason.noConfusion h4
    | some ab =>
      obtain ⟨h1, h2, heq⟩ := scanStep_live norm iis input st m ab hfind hab
      rw [heq] at h
      by_cases hcap : ab + 1 - st.ptr > input.length - st.index
      · rw [if_pos hcap] at h
        injection h with h3 h4
        rw [← h3]
        cases hjp : st.js_present
        · have := hinv hjp
          omega
        · simp
      · rw [if_neg hcap] at h
        unfold stepDecode at h
        by_cases hty :
            (classifyType ((input.drop (st.ptr + m)).take (ab - (st.ptr + m)))).2 = true
        · rw [if_pos hty] at h
          exact StepRes.noConfusion h
        · rw [if_neg hty] at h
          exact StepRes.noConfusion h

/-! ### Loop-level invariants -/

/-- The scan cursor never decreases across the whole loop. -/
theorem scanLoopF_ptr_mono (norm : NormFn) (iis : Option (List Nat))
    (input : List Nat) :
    ∀ fuel st, st.ptr ≤ ((scanLoopF norm iis input fuel st).1).ptr := by
  intro fuel
  induction fuel with
  | zero => intro st; simp [scanLoopF]
  | succ n ih =>
    intro st
    rw [scanLoopF]
    by_cases hp : st.ptr < input.length
    · rw [if_pos hp]
      cases hs : scanStep norm iis input st with
      | exit st2 r =>
        simp only
        have := (scanStep_exit_shape norm iis input st st2 r hs).1
        omega
      | next st2 =>
        simp only
        have h1 := (scanStep_next_shape norm iis input st st2 hs).1
        have h2 := ih st2
        omega
    · rw [if_neg hp]

/-- With fuel exceeding the number of unscanned bytes the loop always
    reaches a genuine exit: fuel exhaustion is unreachable, i.e. the scan
    terminates on every finite input. -/
theorem scanLoopF_no_fuelOut (norm : NormFn) (iis : Option (List Nat))
    (input : List Nat) :
    ∀ fuel st, input.length - st.ptr < fuel →
      (scanLoopF norm iis input fuel st).2 ≠ ExitReason.fuelOut := by
  intro fuel
  induction fuel with
  | zero => intro st h; omega
  | succ n ih =>
    intro st hfuel
    rw [scanLoopF]
    by_cases hp : st.ptr < input.length
    · rw [if_pos hp]
      cases hs : scanStep norm iis input st with
      | exit st2 r =>
        simp only
        exact (scanStep_exit_shape norm iis input st st2 r hs).2.2.2.2.1
      | next st2 =>
        simp only
        have h1 := (scanStep_next_shape norm iis input st st2 hs).1
        exact ih st2 (by omega)
    · rw [if_neg hp]
      simp

/-- If the loop stops with the capacity reason, the js_present flag of the
    final state is set, provided the state it started from satisfies the
    cursors-agree-while-no-javascript invariant. -/
theorem scanLoopF_capacity_jp (norm : NormFn) (iis : Option (List Nat))
    (input : List Nat) :
    ∀ fuel st, (st.js_present = false → st.index = st.ptr) →
      (scanLoopF norm iis input fuel st).2 = ExitReason.capacity →
      ((scanLoopF norm iis input fuel st).1).js_present = true := by
  intro fuel
  induction fuel with
  | zero => intro st _ h; simp [scanLoopF] at h
  | succ n ih =>
    intro st hinv hcap
    rw [scanLoopF] at hcap ⊢
    by_cases hp : st.ptr < input.length
    · rw [if_pos hp] at hcap ⊢
      cases hs : scanStep norm iis input st with
      | exit st2 r =>
        rw [hs] at hcap
        simp only at hcap
        subst hcap
        exact scanStep_capacity norm iis input st st2 hs hinv
      | next st2 =>
        rw [hs] at hcap
        simp only at hcap
        exact ih st2 ((scanStep_next_shape norm iis input st st2 hs).2.2 hinv) hcap
    · rw [if_neg hp] at hcap ⊢
      simp at hcap
    
/-- With a capacity-honoring backend the output cursor stays within the
    input length through the whole loop. -/
theorem scanLoopF_index_le (norm : NormFn) (iis : Option (List Nat))
    (input : List Nat)
    (hB : ∀ src cap js i2, (norm src cap js i2).bytes_copied ≤ cap) :
    ∀ fuel st, st.index ≤ input.length →
      ((scanLoopF norm iis input fuel st).1).index ≤ input.length := by
  intro fuel
  induction fuel with
  | zero => intro st h; simpa [scanLoopF] using h
  | succ n ih =>
    intro st hidx
    rw [scanLoopF]
    by_cases hp : st.ptr < input.length
    · rw [if_pos hp]
      cases hs : scanStep norm iis input st with
      | exit st2 r =>
        simp only
        have := (scanStep_exit_shape norm iis input st st2 r hs).2.1
        omega
      | next st2 =>
        simp only
        exact ih st2 (scanStep_next_index norm iis input st st2 hB hs hidx)
    · rw [if_neg hp]
      exact hidx

/-- With the depth-limited backend the decode state survives the whole
    loop unchanged. -/
theorem scanLoopF_js_wrap (f : List Nat → Nat → Int → Nat × Nat × List Nat)
    (depth : Int) (iis : Option (List Nat)) (input : List Nat) :
    ∀ fuel st, ((scanLoopF (jsNormWrap f depth) iis input fuel st).1).js = st.js := by
  intro fuel
  induction fuel with
  | zero => intro st; simp [scanLoopF]
  | succ n ih =>
    intro st
    rw [scanLoopF]
    by_cases hp : st.ptr < input.length
    · rw [if_pos hp]
      cases hs : scanStep (jsNormWrap f depth) iis input st with
      | exit st2 r =>
        simp only
        exact (scanStep_exit_shape (jsNormWrap f depth) iis input st st2 r hs).2.2.2.1
      | next st2 =>
        simp only
        rw [ih st2]
        exact scanStep_next_js_wrap f depth iis input st st2 hs
    · rw [if_neg hp]

/-! ### Facts about finalization -/

/-- If no block was ever classified as JavaScript, finalization discards
    the working buffer and returns the input itself with no reports. -/
theorem finalize_not_present (input : List Nat) (st : ScanState)
    (h : st.js_present = false) :
    finalizeOut input st =
      { out := input, zeroCopy := true, infractions := [], events := [],
        js_final := st.js } := by
  unfold finalizeOut
  rw [if_neg (by simp [h])]

/-- If some block was classified as JavaScript, the returned buffer is the
    working buffer, not an alias of the input. -/
theorem finalize_present_zeroCopy (input : List Nat) (st : ScanState)
    (h : st.js_present = true) :
    (finalizeOut input st).zeroCopy = false := by
  unfold finalizeOut
  rw [if_pos (by simp [h])]

/-- Finalization never produces an output longer than the input, as long
    as the output cursor is within bounds. -/
theorem finalize_len (input : List Nat) (st : ScanState)
    (hidx : st.index ≤ input.length) :
    (finalizeOut input st).out.length ≤ input.length := by
  unfold finalizeOut
  by_cases hjp : st.js_present = true
  · rw [if_pos (by simp [hjp])]
    simp only [List.length_take]
    by_cases h1 : st.ptr < input.length
    · by_cases h2 : input.length - st.index ≥ input.length - st.ptr
      · simp [h1, h2]
        omega
      · simp [h1, h2]
        omega
    · simp [h1]
      omega
  · rw [if_neg (by simp [hjp])]

/-- Each infraction id occurs at most once in the assembled report list. -/
theorem inf_build_count (b1 b2 b3 : Bool) (x : InfId) :
    ((if b1 then [InfId.INF_JS_OBFUSCATION_EXCD] else []) ++
     (if b2 then [InfId.INF_JS_EXCESS_WS] else []) ++
     (if b3 then [InfId.INF_MIXED_ENCODINGS] else [])).count x ≤ 1 := by
  cases x <;> cases b1 <;> cases b2 <;> cases b3 <;> decide

/-- Each event id occurs at most once in the assembled event list. -/
theorem ev_build_count (b1 b2 b3 : Bool) (x : EventId) :
    ((if b1 then [EventId.EVENT_JS_OBFUSCATION_EXCD] else []) ++
     (if b2 then [EventId.EVENT_JS_EXCESS_WS] else []) ++
     (if b3 then [EventId.EVENT_MIXED_ENCODINGS] else [])).count x ≤ 1 := by
  cases x <;> cases b1 <;> cases b2 <;> cases b3 <;> decide

/-- Finalization reports every infraction at most once. -/
theorem finalize_inf_count (input : List Nat) (st : ScanState) (x : InfId) :
    (finalizeOut input st).infractions.count x ≤ 1 := by
  unfold finalizeOut
  by_cases hjp : st.js_present = true
  · rw [if_pos (by simp [hjp])]
    simp only
    by_cases ha : (st.js.alert_levels_exceeded || st.js.alert_spaces_exceeded ||
        st.js.alert_mixed_encodings) = true
    · rw [if_pos ha]
      exact inf_build_count _ _ _ x
    · rw [if_neg ha]
      simp
  · rw [if_neg (by simp [hjp])]
    simp

/-- Finalization creates every event at most once. -/
theorem finalize_ev_count (input : List Nat) (st : ScanState) (x : EventId) :
    (finalizeOut input st).events.count x ≤ 1 := by
  unfold finalizeOut
  by_cases hjp : st.js_present = true
  · rw [if_pos (by simp [hjp])]
    simp only
    by_cases ha : (st.js.alert_levels_exceeded || st.js.alert_spaces_exceeded ||
        st.js.alert_mixed_encodings) = true
    · rw [if_pos ha]
      exact ev_build_count _ _ _ x
    · rw [if_neg ha]
      simp
  · rw [if_neg (by simp [hjp])]
    simp

/-- With all alert flags clear, finalization reports nothing at all. -/
theorem finalize_no_alerts (input : List Nat) (st : ScanState)
    (h1 : st.js.alert_levels_exceeded = false)
    (h2 : st.js.alert_spaces_exceeded = false)
    (h3 : st.js.alert_mixed_encodings = false) :
    (finalizeOut input st).infractions = [] ∧ (finalizeOut input st).events = [] := by
  unfold finalizeOut
  by_cases hjp : st.js_present = true
  · rw [if_pos (by simp [hjp])]
    simp [h1, h2, h3]
  · rw [if_neg (by simp [hjp])]
    exact ⟨rfl, rfl⟩

/-- Finalization hands the decode state through unchanged. -/
theorem finalize_js_final (input : List Nat) (st : ScanState) :
    (finalizeOut input st).js_final = st.js := by
  unfold finalizeOut
  by_cases hjp : st.js_present = true
  · rw [if_pos (by simp [hjp])]
  · rw [if_neg (by simp [hjp])]

/-- The state update of AtomSplitter::scan is the same on both branches. -/
theorem atomScan_fst (st : AtomSplitter) (len : Nat) :
    (atomScan st len).1 =
      { st with bytes := st.bytes + len, segs := st.segs + 1 } := by
  simp only [atomScan]
  split <;> rfl

/-- Feeding a segment sequence accumulates bytes and segment counts and
    leaves the thresholds untouched. -/
theorem atomFeed_state (L : List Nat) :
    ∀ st : AtomSplitter,
      (atomFeed st L).bytes = st.bytes + L.sum ∧
      (atomFeed st L).segs = st.segs + L.length ∧
      (atomFeed st L).base = st.base ∧
      (atomFeed st L).min = st.min := by
  induction L with
  | nil => intro st; simp [atomFeed]
  | cons l ls ih =>
    intro st
    have h1 := ih ((atomScan st l).1)
    rw [atomScan_fst st l] at h1
    obtain ⟨a, b, c, d⟩ := h1
    unfold atomFeed
    rw [atomScan_fst st l]
    refine ⟨?_, ?_, ?_, ?_⟩
    · rw [a]
      simp [List.sum_cons]
      omega
    · rw [b]
      simp [List.length_cons]
      omega
    · rw [c]
    · rw [d]

/-! ### Concrete backends and inputs used as test vectors -/

/-- Backend that consumes its whole source and writes nothing; it honors
    every contract bound. -/
def skipDec : NormFn := fun src _ js _ => ⟨src.length, 0, [], js⟩

/-- Backend that consumes nothing and fills the whole remaining capacity:
    it honors the capacity bound yet produces more than it consumes. -/
def fillDec : NormFn := fun _ cap js _ => ⟨0, cap, List.replicate cap 65, js⟩

/-- Backend that consumes its whole source and sets the mixed-encodings
    alert flag in the decode state. -/
def mixDec : NormFn :=
  fun src _ js _ => ⟨src.length, 0, [], { js with alert_mixed_encodings := true }⟩

/-- A depth-limited backend that consumes and produces nothing. -/
def idDepthDec : List Nat → Nat → Int → Nat × Nat × List Nat :=
  fun _ _ _ => (0, 0, [])

/-- The 8 bytes of a lowercase script tag followed by its terminator. -/
def in_script_gt : List Nat := [60, 115, 99, 114, 105, 112, 116, 62]

/-- Two adjacent script tags. -/
def in_two_scripts : List Nat := in_script_gt ++ in_script_gt

/-- Two plain letters with no keyword. -/
def in_plain : List Nat := [104, 105]

/-- A script tag declaring the ECMASCRIPT type, then one content byte. -/
def in_ecma : List Nat :=
  [60, 115, 99, 114, 105, 112, 116, 32] ++ pat_ECMASCRIPT ++ [62, 97]

/-- Two letters and an unterminated script tag. -/
def in_unterminated : List Nat := [97, 98, 60, 115, 99, 114, 105, 112, 116]

/-- A terminated script tag with one content byte. -/
def in_script_gt_a : List Nat := in_script_gt ++ [97]

/-! ### Claims -/

/-- Claim C3: for every input the output buffer produced by normalize is
    no longer than the input body, and the output cursor never exceeds the
    input length at any point of the scan, assuming the decoding backend
    honors its declared destination-capacity bound. -/
theorem C3_output_le_input (norm : NormFn) (iis : Option (List Nat))
    (mw ml : Int) (input : List Nat)
    (hB : ∀ src cap js i2, (norm src cap js i2).bytes_copied ≤ cap) :
    (httpJsNormalize norm iis mw ml input).out.length ≤ input.length ∧
    (∀ fuel st, st.index ≤ input.length →
      ((scanLoopF norm iis input fuel st).1).index ≤ input.length) := by
  constructor
  · unfold httpJsNormalize
    exact finalize_len input _
      (scanLoopF_index_le norm iis input hB (input.length + 1) (initState mw ml)
        (Nat.zero_le _))
  · exact scanLoopF_index_le norm iis input hB

/-- Witness for C3 at a concrete bounded backend and input. -/
theorem C3_output_le_input_witness :
    (httpJsNormalize skipDec none 0 0 in_script_gt_a).out.length ≤
      in_script_gt_a.length :=
  (C3_output_le_input skipDec none 0 0 in_script_gt_a
    (fun _ cap _ _ => Nat.zero_le cap)).1

/-- Claim C4: an input with no occurrence of the script-opening keyword is
    passed through unchanged, as a zero-copy alias of the input. -/
theorem C4_no_script_passthrough (norm : NormFn) (iis : Option (List Nat))
    (mw ml : Int) (input : List Nat)
    (h : ∀ i, i < input.length → ¬ occursAt input script_start i) :
    (httpJsNormalize norm iis mw ml input).out = input ∧
    (httpJsNormalize norm iis mw ml input).zeroCopy = true := by
  have hn : findSub script_start input 0 = none := by
    apply findSub_eq_none_spec
    intro k _ hk
    have hk2 := h k hk
    unfold occursAt at hk2
    cases hc : ciMatch script_start (input.drop k)
    · rfl
    · exact absurd hc hk2
  have hloop : (scanLoopF norm iis input (input.length + 1) (initState mw ml)).1
      = initState mw ml := by
    rw [scanLoopF]
    by_cases hl : (initState mw ml).ptr < input.length
    · rw [if_pos hl]
      have hstep : scanStep norm iis input (initState mw ml) =
          StepRes.exit (initState mw ml) ExitReason.noScript := by
        unfold scanStep
        have hd : (input.drop (initState mw ml).ptr) = input := by
          simp [initState]
        rw [hd, hn]
      rw [hstep]
    · rw [if_neg hl]
  unfold httpJsNormalize
  rw [hloop, finalize_not_present input (initState mw ml) rfl]
  exact ⟨rfl, rfl⟩

/-- Witness for C4 on a concrete keyword-free input. -/
theorem C4_no_script_passthrough_witness :
    (∀ i, i < in_plain.length → ¬ occursAt in_plain script_start i) ∧
    (httpJsNormalize skipDec none 0 0 in_plain).out = in_plain ∧
    (httpJsNormalize skipDec none 0 0 in_plain).zeroCopy = true :=
  ⟨by decide, C4_no_script_passthrough skipDec none 0 0 in_plain (by decide)⟩

/-- Claim C7: in one normalization call each of the three alert conditions
    is reported at most once, as an infraction and as an event, however
    many blocks set the corresponding flag in the shared decode state. -/
theorem C7_alert_once (norm : NormFn) (iis : Option (List Nat))
    (mw ml : Int) (input : List Nat) :
    (httpJsNormalize norm iis mw ml input).infractions.count
      InfId.INF_JS_OBFUSCATION_EXCD ≤ 1 ∧
    (httpJsNormalize norm iis mw ml input).infractions.count
      InfId.INF_JS_EXCESS_WS ≤ 1 ∧
    (httpJsNormalize norm iis mw ml input).infractions.count
      InfId.INF_MIXED_ENCODINGS ≤ 1 ∧
    (httpJsNormalize norm iis mw ml input).events.count
      EventId.EVENT_JS_OBFUSCATION_EXCD ≤ 1 ∧
    (httpJsNormalize norm iis mw ml input).events.count
      EventId.EVENT_JS_EXCESS_WS ≤ 1 ∧
    (httpJsNormalize norm iis mw ml input).events.count
      EventId.EVENT_MIXED_ENCODINGS ≤ 1 := by
  unfold httpJsNormalize
  exact ⟨finalize_inf_count _ _ _, finalize_inf_count _ _ _, finalize_inf_count _ _ _,
    finalize_ev_count _ _ _, finalize_ev_count _ _ _, finalize_ev_count _ _ _⟩

/-- Witness for C7 on a backend that raises the mixed-encodings flag on
    every block of a two-block document. -/
theorem C7_alert_once_witness :
    (httpJsNormalize mixDec none 0 0 in_two_scripts).events.count
      EventId.EVENT_MIXED_ENCODINGS ≤ 1 :=
  (C7_alert_once mixDec none 0 0 in_two_scripts).2.2.2.2.2

/-- Claim C8: within one call the scan cursor never decreases, every
    continuing iteration makes strictly positive progress (so no byte
    range is processed twice), and with fuel exceeding the unscanned byte
    count the loop always reaches a genuine exit on any finite input. -/
theorem C8_cursor_monotone_terminates (norm : NormFn) (iis : Option (List Nat))
    (input : List Nat) (fuel : Nat) (st : ScanState) :
    st.ptr ≤ ((scanLoopF norm iis input fuel st).1).ptr ∧
    (∀ st2, scanStep norm iis input st = StepRes.next st2 → st.ptr < st2.ptr) ∧
    (input.length - st.ptr < fuel →
      (scanLoopF norm iis input fuel st).2 ≠ ExitReason.fuelOut) := by
  refine ⟨scanLoopF_ptr_mono norm iis input fuel st, ?_, ?_⟩
  · intro st2 hs
    exact (scanStep_next_shape norm iis input st st2 hs).1
  · intro hf
    exact scanLoopF_no_fuelOut norm iis input fuel st hf

/-- Witness for C8 on a concrete run. -/
theorem C8_cursor_monotone_terminates_witness :
    (scanLoopF skipDec none in_script_gt_a (in_script_gt_a.length + 1)
      (initState 0 0)).2 ≠ ExitReason.fuelOut :=
  (C8_cursor_monotone_terminates skipDec none in_script_gt_a
    (in_script_gt_a.length + 1) (initState 0 0)).2.2 (by decide)

/-- Claim C9: AtomSplitter::scan flushes at the current segment length
    exactly when, counting the current segment, at least two segments were
    seen since the last reset and the accumulated bytes reach the
    configured base plus the flush-bucket size; otherwise it searches. -/
theorem C9_atom_scan_flush_iff (sz fb len : Nat) (L : List Nat) :
    ((atomScan (atomFeed (atomInit sz fb) L) len).2.1 = SplitStatus.FLUSH ↔
      (2 ≤ L.length + 1 ∧ sz + fb ≤ L.sum + len)) ∧
    ((atomScan (atomFeed (atomInit sz fb) L) len).2.1 = SplitStatus.FLUSH →
      (atomScan (atomFeed (atomInit sz fb) L) len).2.2 = some len) ∧
    ((atomScan (atomFeed (atomInit sz fb) L) len).2.1 = SplitStatus.SEARCH →
      (atomScan (atomFeed (atomInit sz fb) L) len).2.2 = none) := by
  obtain ⟨hb, hs, hba, hm⟩ := atomFeed_state L (atomInit sz fb)
  have hb2 : (atomFeed (atomInit sz fb) L).bytes = L.sum := by
    simpa [atomInit] using hb
  have hs2 : (atomFeed (atomInit sz fb) L).segs = L.length := by
    simpa [atomInit] using hs
  have hm2 : (atomFeed (atomInit sz fb) L).min = sz + fb := by
    simpa [atomInit] using hm
  unfold atomScan
  simp only
  split_ifs with hc
  · refine ⟨⟨fun _ => ?_, fun _ => rfl⟩, fun _ => rfl, fun h => absurd h (by simp)⟩
    obtain ⟨hc1, hc2⟩ := hc
    rw [hs2] at hc1
    rw [hb2, hm2] at hc2
    omega
  · refine ⟨⟨fun h => absurd h (by simp), fun h => ?_⟩, fun h => absurd h (by simp),
      fun _ => rfl⟩
    obtain ⟨h1, h2⟩ := h
    exact absurd ⟨by rw [hs2]; omega, by rw [hb2, hm2]; omega⟩ hc

/-- Witness for C9: two one-byte segments against threshold 2 flush at the
    second segment with the flush point at its length. -/
theorem C9_atom_scan_flush_iff_witness :
    (atomScan (atomFeed (atomInit 1 1) [1]) 1).2.1 = SplitStatus.FLUSH ∧
    (atomScan (atomFeed (atomInit 1 1) [1]) 1).2.2 = some 1 := by
  have h1 : (atomScan (atomFeed (atomInit 1 1) [1]) 1).2.1 = SplitStatus.FLUSH :=
    (C9_atom_scan_flush_iff 1 1 1 [1]).1.mpr (by constructor <;> decide)
  exact ⟨h1, (C9_atom_scan_flush_iff 1 1 1 [1]).2.1 h1⟩

/-- Claim C10: with a nonzero configured normalization depth the selected
    backend never receives or modifies the per-document decode state, so
    the whitespace-budget and mixed-encodings conditions are never
    reported, and the final decode state holds exactly the values the
    orchestrator initialized. -/
theorem C10_depth_variant_state_untouched (depth : Int)
    (f : List Nat → Nat → Int → Nat × Nat × List Nat) (legacy : NormFn)
    (iis : Option (List Nat)) (mw ml : Int) (input : List Nat)
    (hd : depth ≠ 0) :
    (httpJsNormalize (configureNormalizer depth legacy f) iis mw ml input).js_final
      = ⟨mw, ml, false, false, false⟩ ∧
    InfId.INF_JS_EXCESS_WS ∉
      (httpJsNormalize (configureNormalizer depth legacy f) iis mw ml input).infractions ∧
    InfId.INF_MIXED_ENCODINGS ∉
      (httpJsNormalize (configureNormalizer depth legacy f) iis mw ml input).infractions ∧
    EventId.EVENT_JS_EXCESS_WS ∉
      (httpJsNormalize (configureNormalizer depth legacy f) iis mw ml input).events ∧
    EventId.EVENT_MIXED_ENCODINGS ∉
      (httpJsNormalize (configureNormalizer depth legacy f) iis mw ml input).events := by
  have hcfg : configureNormalizer depth legacy f = jsNormWrap f depth := by
    unfold configureNormalizer
    rw [if_pos hd]
  have hjs : ((scanLoopF (configureNormalizer depth legacy f) iis input
      (input.length + 1) (initState mw ml)).1).js = (initState mw ml).js := by
    rw [hcfg]
    exact scanLoopF_js_wrap f depth iis input (input.length + 1) (initState mw ml)
  have hfin : (httpJsNormalize (configureNormalizer depth legacy f) iis mw ml
      input).js_final = ⟨mw, ml, false, false, false⟩ := by
    unfold httpJsNormalize
    rw [finalize_js_final, hjs]
    rfl
  have hempty := finalize_no_alerts input
    ((scanLoopF (configureNormalizer depth legacy f) iis input (input.length + 1)
      (initState mw ml)).1)
    (by rw [hjs]; rfl) (by rw [hjs]; rfl) (by rw [hjs]; rfl)
  refine ⟨hfin, ?_, ?_, ?_, ?_⟩
  · unfold httpJsNormalize
    rw [hempty.1]
    simp
  · unfold httpJsNormalize
    rw [hempty.1]
    simp
  · unfold httpJsNormalize
    rw [hempty.2]
    simp
  · unfold httpJsNormalize
    rw [hempty.2]
    simp

/-- Witness for C10 with depth 1 on a document holding a script block. -/
theorem C10_depth_variant_state_untouched_witness :
    (httpJsNormalize (configureNormalizer 1 skipDec idDepthDec) none 0 0
      in_script_gt_a).js_final = ⟨0, 0, false, false, false⟩ ∧
    InfId.INF_JS_EXCESS_WS ∉
      (httpJsNormalize (configureNormalizer 1 skipDec idDepthDec) none 0 0
        in_script_gt_a).infractions :=
  ⟨(C10_depth_variant_state_untouched 1 idDepthDec skipDec none 0 0
      in_script_gt_a (by decide)).1,
   (C10_depth_variant_state_untouched 1 idDepthDec skipDec none 0 0
      in_script_gt_a (by decide)).2.1⟩

/-- Counterexample to claim C2 as stated: with a backend that honors the
    capacity bound but produces more bytes than it consumes, the copy of
    the span preceding the second script tag exceeds the remaining
    capacity, the scan aborts with the capacity reason, and yet the output
    is the partially filled working buffer, not the original input. -/
theorem C2_counterexample :
    (scanLoopF fillDec none in_two_scripts (in_two_scripts.length + 1)
      (initState 0 0)).2 = ExitReason.capacity ∧
    (httpJsNormalize fillDec none 0 0 in_two_scripts).zeroCopy = false ∧
    (httpJsNormalize fillDec none 0 0 in_two_scripts).out ≠ in_two_scripts := by
  refine ⟨by decide, by decide, by decide⟩

/-- Claim C2 amended: when the preceding-span copy would exceed the
    remaining capacity the whole scan aborts, but the state it aborts in
    always has js_present set (a decoding call must already have run for
    the output cursor to outrun the scan cursor), so the caller receives
    the partially filled working buffer rather than the original input. -/
theorem C2_capacity_amended (norm : NormFn) (iis : Option (List Nat))
    (mw ml : Int) (input : List Nat)
    (hcap : (scanLoopF norm iis input (input.length + 1)
      (initState mw ml)).2 = ExitReason.capacity) :
    ((scanLoopF norm iis input (input.length + 1)
      (initState mw ml)).1).js_present = true ∧
    (httpJsNormalize norm iis mw ml input).zeroCopy = false := by
  have hjp := scanLoopF_capacity_jp norm iis input (input.length + 1)
    (initState mw ml) (fun _ => rfl) hcap
  refine ⟨hjp, ?_⟩
  unfold httpJsNormalize
  exact finalize_present_zeroCopy input _ hjp

/-- Witness for the amended C2 on the concrete capacity-aborting run. -/
theorem C2_capacity_amended_witness :
    ((scanLoopF fillDec none in_two_scripts (in_two_scripts.length + 1)
      (initState 0 0)).1).js_present = true ∧
    (httpJsNormalize fillDec none 0 0 in_two_scripts).zeroCopy = false :=
  C2_capacity_amended fillDec none 0 0 in_two_scripts (by decide)

/-- Counterexample to claim C6 as stated: when the terminator is the very
    last byte of the buffer, no bytes remain after it, yet the scan loop
    does not stop at the terminator location: the block is classified,
    handed to the decoding backend (whose alert flag surfaces as an event)
    and the call returns the copied working buffer, not the untouched
    input. -/
theorem C6_counterexample :
    findSub [62] in_script_gt 0 = some 7 ∧
    in_script_gt.length = 8 ∧
    (httpJsNormalize mixDec none 0 0 in_script_gt).zeroCopy = false ∧
    EventId.EVENT_MIXED_ENCODINGS ∈
      (httpJsNormalize mixDec none 0 0 in_script_gt).events := by
  refine ⟨by decide, by decide, by decide, by decide⟩

/-- Claim C6 amended: when the opener is found but no terminator byte
    occurs up to the end of the buffer, the scan loop stops immediately
    with the whole state unchanged (so the remaining bytes are left to
    finalization as non-script and no infraction or event can arise from
    this condition); a terminator at the very last byte does not stop the
    loop. -/
theorem C6_no_terminator_amended (norm : NormFn) (iis : Option (List Nat))
    (input : List Nat) (st : ScanState) (fuel m : Nat)
    (hlt : st.ptr < input.length)
    (hfind : findSub script_start (input.drop st.ptr) 0 = some m)
    (hgt : findSub [62] input (st.ptr + m) = none) :
    scanLoopF norm iis input (fuel + 1) st = (st, ExitReason.noTerminator) := by
  rw [scanLoopF]
  rw [if_pos hlt]
  have hstep : scanStep norm iis input st =
      StepRes.exit st ExitReason.noTerminator := by
    simp only [scanStep, hfind, hgt]
  rw [hstep]

/-- Witness for the amended C6 on a concrete unterminated tag. -/
theorem C6_no_terminator_amended_witness :
    scanLoopF skipDec none in_unterminated 10 (initState 0 0) =
      (initState 0 0, ExitReason.noTerminator) :=
  C6_no_terminator_amended skipDec none in_unterminated (initState 0 0) 9 2
    (by decide) (by decide) (by decide)

/-- Claim C5: a script block whose terminator immediately follows the
    opening keyword is classified as JavaScript and its content after the
    terminator is handed to the decoding backend (the type search sees
    only the 7 opener bytes, finds no keyword, and line 188 applies the
    permissive default). -/
theorem C5_empty_attr_javascript (norm : NormFn) (iis : Option (List Nat))
    (input : List Nat) (st : ScanState) (m : Nat)
    (hfind : findSub script_start (input.drop st.ptr) 0 = some m)
    (hgt : findSub [62] input (st.ptr + m) = some (st.ptr + m + 7))
    (hcap : m + 8 ≤ input.length - st.index) :
    scanStep norm iis input st = StepRes.next
      ⟨st.ptr + m + 8 +
        (norm (input.drop (st.ptr + m + 8))
          (input.length - (st.index + (m + 8))) st.js iis).consumed,
       st.index + (m + 8) +
        (norm (input.drop (st.ptr + m + 8))
          (input.length - (st.index + (m + 8))) st.js iis).bytes_copied,
       st.buf ++ (input.drop st.ptr).take (m + 8) ++
        (norm (input.drop (st.ptr + m + 8))
          (input.length - (st.index + (m + 8))) st.js iis).out,
       true,
       (norm (input.drop (st.ptr + m + 8))
          (input.length - (st.index + (m + 8))) st.js iis).js⟩ := by
  obtain ⟨h1, h2, heq⟩ := scanStep_live norm iis input st m (st.ptr + m + 7) hfind hgt
  rw [heq]
  have e1 : st.ptr + m + 7 + 1 - st.ptr = m + 8 := by omega
  have e2 : st.ptr + m + 7 - (st.ptr + m) = 7 := by omega
  have e3 : st.ptr + m + 7 + 1 = st.ptr + m + 8 := by omega
  rw [e1, e2, e3]
  have hcl : classifyType ((input.drop (st.ptr + m)).take 7) = (true, true) := by
    unfold classifyType
    rw [findType_short _ (by simp [List.length_take])]
  rw [hcl]
  rw [if_neg (by omega : ¬ (m + 8 > input.length - st.index))]
  unfold stepDecode
  rw [if_pos (rfl : ((true, true) : Bool × Bool).2 = true)]
  simp

/-- Witness for C5 on a concrete empty-attribute script tag. -/
theorem C5_empty_attr_javascript_witness :
    findSub script_start (in_script_gt_a.drop (initState 0 0).ptr) 0 = some 0 ∧
    findSub [62] in_script_gt_a ((initState 0 0).ptr + 0) =
      some ((initState 0 0).ptr + 0 + 7) ∧
    scanStep skipDec none in_script_gt_a (initState 0 0) =
      StepRes.next ⟨9, 8, in_script_gt, true, ⟨0, 0, false, false, false⟩⟩ := by
  refine ⟨by decide, by decide, ?_⟩
  rw [C5_empty_attr_javascript skipDec none in_script_gt_a (initState 0 0) 0
    (by decide) (by decide) (by decide)]
  decide

/-- If some type keyword occurs at offset i of the searched range and no
    type keyword occurs earlier, the type search reports offset i together
    with the id of a keyword matching there. -/
theorem classify_earliest (s : List Nat) (i : Nat) (P : List Nat) (t0 : HtmlId)
    (hP : (P, t0) ∈ html_patterns)
    (hocc : ciMatch P (s.drop i) = true)
    (hmin : ∀ j q, q ∈ html_patterns → ciMatch q.1 (s.drop j) = true → i ≤ j) :
    ∃ q, q ∈ html_patterns ∧ ciMatch q.1 (s.drop i) = true ∧
      findType s 0 = some (i, q.2) := by
  have h8 : 8 ≤ P.length := html_patterns_long (P, t0) hP
  have hil : i < s.length := by
    have hlen := ciMatch_length P (s.drop i) hocc
    have hld : (s.drop i).length = s.length - i := by simp
    omega
  cases hft : findType s 0 with
  | none =>
    have hft2 : findTypeGo (s.drop 0) 0 = none := hft
    have := findTypeGo_none s s.length 0 (by omega) hft2 i (Nat.zero_le i) hil (P, t0) hP
    rw [this] at hocc
    exact Bool.noConfusion hocc
  | some pr =>
    obtain ⟨j, t⟩ := pr
    have hft2 : findTypeGo (s.drop 0) 0 = some (j, t) := hft
    obtain ⟨-, hjlen, q, hq, hqt, hqm⟩ :=
      findTypeGo_some s s.length 0 j t (by omega) hft2
    have hij : i ≤ j := hmin j q hq hqm
    have hji : ¬ (i < j) := by
      intro hlt2
      have hnone := findTypeGo_min s s.length 0 j t (by omega) hft2 i
        (Nat.zero_le i) hlt2 (P, t0) hP
      rw [hnone] at hocc
      exact Bool.noConfusion hocc
    have hij2 : i = j := by omega
    subst hij2
    refine ⟨q, hq, hqm, ?_⟩
    rw [hqt]

/-- Claim C1 amended: on the range the classifier searches, a block whose
    earliest type-keyword match is JAVASCRIPT is treated as JavaScript,
    while a block whose earliest match is ECMASCRIPT or VBSCRIPT is
    treated as not JavaScript (only the JAVASCRIPT id hits the switch case
    of line 177; ECMASCRIPT falls to the default like VBSCRIPT). -/
theorem C1_classifier_amended (s : List Nat) (i : Nat)
    (hmin : ∀ j q, q ∈ html_patterns → occursAt s q.1 j → i ≤ j) :
    (occursAt s pat_JAVASCRIPT i → (classifyType s).2 = true) ∧
    (occursAt s pat_ECMASCRIPT i → (classifyType s).2 = false) ∧
    (occursAt s pat_VBSCRIPT i → (classifyType s).2 = false) := by
  have hmin2 : ∀ j q, q ∈ html_patterns → ciMatch q.1 (s.drop j) = true → i ≤ j :=
    hmin
  refine ⟨?_, ?_, ?_⟩
  · intro hocc
    obtain ⟨q, hq, hqm, hft⟩ := classify_earliest s i pat_JAVASCRIPT
      HtmlId.HTML_JS (by simp [html_patterns]) hocc hmin2
    simp only [html_patterns, List.mem_cons, List.not_mem_nil, or_false] at hq
    rcases hq with rfl | rfl | rfl
    · unfold classifyType
      rw [hft]
      rfl
    · exact ((ciMatch_head_excl 74 69 _ _ _ (by decide) hocc hqm)).elim
    · exact ((ciMatch_head_excl 74 86 _ _ _ (by decide) hocc hqm)).elim
  · intro hocc
    obtain ⟨q, hq, hqm, hft⟩ := classify_earliest s i pat_ECMASCRIPT
      HtmlId.HTML_EMA (by simp [html_patterns]) hocc hmin2
    simp only [html_patterns, List.mem_cons, List.not_mem_nil, or_false] at hq
    rcases hq with rfl | rfl | rfl
    · exact ((ciMatch_head_excl 69 74 _ _ _ (by decide) hocc hqm)).elim
    · unfold classifyType
      rw [hft]
      rfl
    · exact ((ciMatch_head_excl 69 86 _ _ _ (by decide) hocc hqm)).elim
  · intro hocc
    obtain ⟨q, hq, hqm, hft⟩ := classify_earliest s i pat_VBSCRIPT
      HtmlId.HTML_VB (by simp [html_patterns]) hocc hmin2
    simp only [html_patterns, List.mem_cons, List.not_mem_nil, or_false] at hq
    rcases hq with rfl | rfl | rfl
    · exact ((ciMatch_head_excl 86 74 _ _ _ (by decide) hocc hqm)).elim
    · exact ((ciMatch_head_excl 86 69 _ _ _ (by decide) hocc hqm)).elim
    · unfold classifyType
      rw [hft]
      rfl

/-- Witness for the amended C1: ECMASCRIPT as the earliest keyword yields
    a not-JavaScript classification. -/
theorem C1_classifier_amended_witness :
    occursAt pat_ECMASCRIPT pat_ECMASCRIPT 0 ∧
    (classifyType pat_ECMASCRIPT).2 = false :=
  ⟨by decide,
   (C1_classifier_amended pat_ECMASCRIPT 0 (fun j _ _ _ => Nat.zero_le j)).2.1
     (by decide)⟩

/-- Counterexample to claim C1 as stated: in a block declaring ECMASCRIPT,
    the ECMASCRIPT keyword is the earliest match of the searched range
    (no keyword occurs before offset 8), yet the classifier treats the
    block as not JavaScript and the whole document is passed through
    untouched instead of being decoded. -/
theorem C1_counterexample :
    occursAt (in_ecma.take 18) pat_ECMASCRIPT 8 ∧
    (∀ j, j < 8 → ∀ q ∈ html_patterns, ¬ occursAt (in_ecma.take 18) q.1 j) ∧
    (classifyType (in_ecma.take 18)).2 = false ∧
    (httpJsNormalize skipDec none 0 0 in_ecma).zeroCopy = true ∧
    (httpJsNormalize skipDec none 0 0 in_ecma).out = in_ecma := by
  refine ⟨by decide, by decide, by decide, by decide, by decide⟩
